import Mathlib

/-!
# AvA: verification of the figure generators in `src/Figures.cpp`

The C++ functions `Likelihood`, `Likelihood_Table`, `IC_SkyMap` and `MW_SkyMap`
are embedded as pure functions.

* `double` values are elements of an arbitrary ordered field `K` with a floor
  function (exact arithmetic; rounding is not modelled).  The definitions compute
  over `ℚ`, and the theorems also hold over `ℝ`.
* The library constant `M_PI` and the library functions `sin` and `log` are
  parameters of the definitions that use them.
* The external likelihoods (`logL`, `L_bkg`, `L_astro`, `L_gal`, `L_exgal`) and the
  samplers (`vMF_smear` after `eq_to_gal`, `MW`) are parameters as well: a sampler is
  the function giving the direction drawn at each trial.
* A quotient whose divisor is zero has no value in exact arithmetic (`none`).
* `int` cells of the histogram are integers in two's complement on 32 bits.
-/

namespace AvA

section Embedding

variable {K : Type*} [LinearOrderedField K]

/-! ## Arithmetic of the C++ expressions -/

/-- Conversion of a `double` to `int`: the fractional part is discarded
(truncation toward zero). -/
def toInt [FloorRing K] (x : K) : ℤ := if 0 ≤ x then ⌊x⌋ else ⌈x⌉

/-- The C library function `fmod(x, y)`: `x - n * y`, where `n` is `x / y` with its
fractional part discarded. -/
def fmod [FloorRing K] (x y : K) : K := x - (toInt (x / y) : K) * y

/-- Division of two `double` values in exact arithmetic: no value when the divisor
is zero. -/
def cdiv (a b : K) : Option K := if b = 0 then none else some (a / b)

/-- The C library function `log` in exact arithmetic, over the mathematical logarithm
`ln`: `log(0)` is minus infinity and the logarithm of a negative number has no
value. -/
def clog (ln : K → K) (x : K) : Option (WithBot K) :=
  if x < 0 then none else if x = 0 then some ⊥ else some ((ln x : K) : WithBot K)

/-! ## `Likelihood` (lines 21-39) -/

/-- Line 28, `N_Steps = 1e3`. -/
def N_Steps : ℤ := 1000

/-- Line 29, `f_gal_min = 0`. -/
def f_gal_min : K := 0

/-- Line 30, `f_gal_max = 1`. -/
def f_gal_max : K := 1

/-- Line 35, the value of `f_gal` at step `i` of the scan. -/
def f_gal (i : ℤ) : K :=
  f_gal_min + (i : K) * (f_gal_max - f_gal_min) / (N_Steps : K)

/-- The lines written by `Likelihood`: the loop `for (i = 0; i <= N_Steps; i++)`
emits the pair `f_gal`, `logL(f_gal)` at each step. -/
def Likelihood (logL : K → K) : List (K × K) :=
  (List.range (N_Steps + 1).toNat).map
    (fun i : ℕ => ((f_gal (i : ℤ) : K), logL (f_gal (i : ℤ))))

/-! ## `Likelihood_Table` (lines 73-115) -/

/-- Lines 96-99: the posterior probabilities `(pbkg, pgal, pexgal)` of one event from
its four likelihoods. -/
def posterior (Lbkg Lastro Lgal Lexgal : K) : Option (K × K × K) :=
  (cdiv Lbkg (Lbkg + Lastro)).bind fun pbkg =>
  (cdiv Lastro (Lbkg + Lastro)).bind fun pastro =>
  (cdiv Lgal (Lgal + Lexgal)).bind fun qgal =>
  (cdiv Lexgal (Lgal + Lexgal)).bind fun qexgal =>
  some (pbkg, qgal * pastro, qexgal * pastro)

/-- Lines 89-110: the loop of `Likelihood_Table` over the events sorted by energy; one
posterior triple for each event, in the order of the table. -/
def Likelihood_Table {Ev : Type} (L_bkg L_astro : Ev → K) (L_gal : Ev → K → K)
    (L_exgal : K → K) (hfgal : K) (events_sorted : List Ev) : List (Option (K × K × K)) :=
  events_sorted.map fun ev =>
    posterior (L_bkg ev) (L_astro ev) (L_gal ev hfgal) (L_exgal hfgal)

/-! ## The sky maps: `IC_SkyMap` (lines 117-166) and `MW_SkyMap` (lines 168-213) -/

/-- Lines 125 and 176, `const int N_thetas = 5e2`. -/
def N_thetas : ℤ := 500

/-- Lines 126 and 177, `const int N_phis = 5e2`. -/
def N_phis : ℤ := 500

/-- Lines 127 and 178, `int N_Repeat = 1e9`. -/
def N_Repeat : ℤ := 1000000000

/-- A direction on the sphere, the type `coord2D` of the program. -/
structure coord2D (K : Type*) where
  theta : K
  phi : K

/-- The array `grid` of `N_thetas * N_phis` cells of type `int`: the cell of flat
index `c` is `grid c`. -/
abbrev Grid := ℕ → ℤ

/-- Lines 133 and 184: every cell is set to zero. -/
def zeroGrid : Grid := fun _ => 0

/-- The operation `++` on an `int` of 32 bits in two's complement: the increment is taken
modulo `2 ^ 32` (past `2 ^ 31 - 1` the C++ operation overflows and the counter wraps). -/
def incr32 (x : ℤ) : ℤ := (x + 1 + 2147483648) % 4294967296 - 2147483648

/-- Lines 146 and 194, `grid[idx]++`. An index outside the array has no defined
result. -/
def incrCell (grid : Grid) (idx : ℤ) : Option Grid :=
  if 0 ≤ idx ∧ idx < N_thetas * N_phis then
    some (Function.update grid idx.toNat (incr32 (grid idx.toNat)))
  else none

/-- Line 144, `k = N_thetas * fmod(theta, M_PI) / M_PI`. -/
def IC_k [FloorRing K] (M_PI theta : K) : ℤ :=
  toInt ((N_thetas : K) * fmod theta M_PI / M_PI)

/-- Line 145, `l = N_phis * fmod(11 * M_PI + phi, 2 * M_PI) / (2 * M_PI)`. -/
def IC_l [FloorRing K] (M_PI phi : K) : ℤ :=
  toInt ((N_phis : K) * fmod (11 * M_PI + phi) (2 * M_PI) / (2 * M_PI))

/-- Line 192, `k = N_thetas * (fmod(theta, M_PI) / M_PI)`. -/
def MW_k [FloorRing K] (M_PI theta : K) : ℤ :=
  toInt ((N_thetas : K) * (fmod theta M_PI / M_PI))

/-- Line 193, `l = N_phis * (fmod(11 * M_PI + phi, 2 * M_PI) / (2 * M_PI))`. -/
def MW_l [FloorRing K] (M_PI phi : K) : ℤ :=
  toInt ((N_phis : K) * (fmod (11 * M_PI + phi) (2 * M_PI) / (2 * M_PI)))

/-- Lines 141-150: the first `n` trials of the loop over `j` for one event, whose
smeared direction at trial `j` is `smeared j`. -/
def IC_trials [FloorRing K] (M_PI : K) (smeared : ℕ → coord2D K) : ℕ → Grid → Option Grid
  | 0, grid => some grid
  | j + 1, grid =>
    (IC_trials M_PI smeared j grid).bind fun g =>
      incrCell g (IC_k M_PI (smeared j).theta * N_phis + IC_l M_PI (smeared j).phi)

/-- Lines 138-151: the loop over the first `n` events, each with `N_Repeat` trials;
`smeared i j` is the direction drawn for event `i` at trial `j`. -/
def IC_events [FloorRing K] (M_PI : K) (smeared : ℕ → ℕ → coord2D K) : ℕ → Grid → Option Grid
  | 0, grid => some grid
  | i + 1, grid =>
    (IC_events M_PI smeared i grid).bind fun g =>
      IC_trials M_PI (smeared i) N_Repeat.toNat g

/-- Lines 132-151 of `IC_SkyMap`: the grid after the loops, for a catalog of `E`
events. -/
def IC_populate [FloorRing K] (M_PI : K) (E : ℕ) (smeared : ℕ → ℕ → coord2D K) : Option Grid :=
  IC_events M_PI smeared E zeroGrid

/-- Lines 189-198: the first `n` trials of the loop of `MW_SkyMap`; `MW i` is the
direction drawn at trial `i`. -/
def MW_trials [FloorRing K] (M_PI : K) (MW : ℕ → coord2D K) : ℕ → Grid → Option Grid
  | 0, grid => some grid
  | i + 1, grid =>
    (MW_trials M_PI MW i grid).bind fun g =>
      incrCell g (MW_k M_PI (MW i).theta * N_phis + MW_l M_PI (MW i).phi)

/-- Lines 183-198 of `MW_SkyMap`: the grid after the loop. -/
def MW_populate [FloorRing K] (M_PI : K) (MW : ℕ → coord2D K) : Option Grid :=
  MW_trials M_PI MW N_Repeat.toNat zeroGrid

/-- Lines 157 and 204, `k = int(1.0 * i / (N_phis))`. -/
def write_k (K : Type*) [LinearOrderedField K] [FloorRing K] (i : ℤ) : ℤ :=
  toInt ((1 : K) * (i : K) / (N_phis : K))

/-- Lines 158 and 205, `theta = M_PI * (k + 0.5) / N_phis`. -/
def write_theta [FloorRing K] (M_PI : K) (i : ℤ) : K :=
  M_PI * ((write_k K i : K) + 1 / 2) / (N_phis : K)

/-- Lines 159 and 206, the argument of `log`: `grid[i] / sin(theta) / N_Repeat`. -/
def logArg [FloorRing K] (sin : K → K) (M_PI : K) (grid : Grid) (i : ℤ) : Option K :=
  (cdiv ((grid i.toNat : ℤ) : K) (sin (write_theta M_PI i))).bind fun q =>
    cdiv q (N_Repeat : K)

/-- Lines 159 and 206, the value written for the cell `i`. -/
def write_cell [FloorRing K] (ln sin : K → K) (M_PI : K) (grid : Grid) (i : ℤ) :
    Option (WithBot K) :=
  (logArg sin M_PI grid i).bind (clog ln)

/-- Lines 155-160 and 202-207 (the same text in both functions): the values written,
one for each `i` from `0` to `N_thetas * N_phis - 1`. -/
def write_grid [FloorRing K] (ln sin : K → K) (M_PI : K) (grid : Grid) :
    List (Option (WithBot K)) :=
  (List.range (N_thetas * N_phis).toNat).map fun i : ℕ =>
    write_cell ln sin M_PI grid (i : ℤ)

/-- The content of a sky-map file: the header line, then the values. -/
structure SkyMapFile (K : Type*) where
  header : ℤ × ℤ × ℤ
  cells : List (Option (WithBot K))

/-- The file written by `IC_SkyMap`. -/
def IC_SkyMap [FloorRing K] (ln sin : K → K) (M_PI : K) (E : ℕ)
    (smeared : ℕ → ℕ → coord2D K) : Option (SkyMapFile K) :=
  (IC_populate M_PI E smeared).map fun grid =>
    { header := (N_thetas, N_phis, N_Repeat), cells := write_grid ln sin M_PI grid }

/-- The file written by `MW_SkyMap`. -/
def MW_SkyMap [FloorRing K] (ln sin : K → K) (M_PI : K) (MW : ℕ → coord2D K) :
    Option (SkyMapFile K) :=
  (MW_populate M_PI MW).map fun grid =>
    { header := (N_thetas, N_phis, N_Repeat), cells := write_grid ln sin M_PI grid }

/-! ## Notions used in the statements -/

/-- The value of the macro `M_PI` of the C library, a `double`. -/
def M_PI_double : ℚ := 884279719003555 / 281474976710656

/-- A sampler that draws the direction `theta = 1`, `phi = 1` at every trial of every
event (events of the same direction whose angular uncertainty is negligible). -/
def sameDirection (K : Type*) [LinearOrderedField K] : ℕ → ℕ → coord2D K :=
  fun _ _ => { theta := 1, phi := 1 }

/-- The loop `for (j = 0; j < n; j++) grid[idx(j)]++`, which `IC_SkyMap` and `MW_SkyMap`
both run with their own flat index `idx`. -/
def accumulate (idx : ℕ → ℤ) : ℕ → Grid → Option Grid
  | 0, grid => some grid
  | j + 1, grid => (accumulate idx j grid).bind fun g => incrCell g (idx j)

/-- The integer `n` as an `int` of 32 bits in two's complement. -/
def wrap32 (n : ℤ) : ℤ := (n + 2147483648) % 4294967296 - 2147483648

/-- The sum of all the cells of the grid. -/
def gridTotal (grid : Grid) : ℤ :=
  ∑ c in Finset.range (N_thetas * N_phis).toNat, grid c

/-- The centre of the theta bin `k`, the bins being the `N_thetas` intervals
`[M_PI * k / N_thetas, M_PI * (k + 1) / N_thetas)`. -/
def theta_bin_center (M_PI : K) (k : ℤ) : K := M_PI * ((k : K) + 1 / 2) / (N_thetas : K)

/-- The log-density of the specification,
`log(count / sin(theta_bin_center) / n_trials)`. -/
def logDensity (ln sin : K → K) (count : ℤ) (theta_center : K) (n_trials : ℤ) :
    Option (WithBot K) :=
  ((cdiv (count : K) (sin theta_center)).bind fun q => cdiv q (n_trials : K)).bind (clog ln)

end Embedding

section Proofs

variable {K : Type*} [LinearOrderedField K]

theorem f_gal_eq (i : ℤ) : (f_gal i : K) = (i : K) / 1000 := by
  simp [f_gal, f_gal_min, f_gal_max, N_Steps]

theorem posterior_of_ne_zero (Lbkg Lastro Lgal Lexgal : K)
    (h1 : Lbkg + Lastro ≠ 0) (h2 : Lgal + Lexgal ≠ 0) :
    posterior Lbkg Lastro Lgal Lexgal =
      some (Lbkg / (Lbkg + Lastro), Lgal / (Lgal + Lexgal) * (Lastro / (Lbkg + Lastro)),
        Lexgal / (Lgal + Lexgal) * (Lastro / (Lbkg + Lastro))) := by
  simp [posterior, cdiv, h1, h2]

theorem posterior_sum (Lbkg Lastro Lgal Lexgal : K)
    (h1 : Lbkg + Lastro ≠ 0) (h2 : Lgal + Lexgal ≠ 0) :
    Lbkg / (Lbkg + Lastro) + Lgal / (Lgal + Lexgal) * (Lastro / (Lbkg + Lastro)) +
      Lexgal / (Lgal + Lexgal) * (Lastro / (Lbkg + Lastro)) = 1 := by
  field_simp
  ring

/-! ### Truncation and `fmod` -/

theorem toInt_of_nonneg [FloorRing K] {x : K} (h : 0 ≤ x) : toInt x = ⌊x⌋ := by
  simp [toInt, h]

theorem fmod_eq_fract [FloorRing K] {x y : K} (hx : 0 ≤ x) (hy : 0 < y) :
    fmod x y = Int.fract (x / y) * y := by
  have h : 0 ≤ x / y := div_nonneg hx hy.le
  rw [fmod, toInt_of_nonneg h, Int.fract]
  field_simp
  ring

theorem fmod_nonneg [FloorRing K] {x y : K} (hx : 0 ≤ x) (hy : 0 < y) : 0 ≤ fmod x y := by
  rw [fmod_eq_fract hx hy]
  exact mul_nonneg (Int.fract_nonneg _) hy.le

theorem fmod_lt [FloorRing K] {x y : K} (hx : 0 ≤ x) (hy : 0 < y) : fmod x y < y := by
  rw [fmod_eq_fract hx hy]
  calc Int.fract (x / y) * y < 1 * y := mul_lt_mul_of_pos_right (Int.fract_lt_one _) hy
    _ = y := one_mul y

/-- A remainder `r` in `[0, y)` scaled by `N / y` and truncated is a bin `0 .. N - 1`. -/
theorem bin_bounds [FloorRing K] {N : ℤ} {r y : K} (hN : 0 < N) (hr0 : 0 ≤ r) (hr : r < y) :
    0 ≤ toInt ((N : K) * r / y) ∧ toInt ((N : K) * r / y) < N := by
  have hy : 0 < y := lt_of_le_of_lt hr0 hr
  have hN0 : (0 : K) < (N : K) := by exact_mod_cast hN
  have h0 : 0 ≤ (N : K) * r / y := div_nonneg (mul_nonneg hN0.le hr0) hy.le
  rw [toInt_of_nonneg h0]
  refine ⟨Int.floor_nonneg.mpr h0, Int.floor_lt.mpr ?_⟩
  rw [div_lt_iff₀ hy]
  exact mul_lt_mul_of_pos_left hr hN0

theorem MW_k_eq_IC_k [FloorRing K] (M_PI theta : K) : MW_k M_PI theta = IC_k M_PI theta := by
  rw [MW_k, IC_k, mul_div_assoc]

theorem MW_l_eq_IC_l [FloorRing K] (M_PI phi : K) : MW_l M_PI phi = IC_l M_PI phi := by
  rw [MW_l, IC_l, mul_div_assoc]

theorem IC_k_bounds [FloorRing K] {M_PI theta : K} (hpi : 0 < M_PI) (h0 : 0 ≤ theta) :
    0 ≤ IC_k M_PI theta ∧ IC_k M_PI theta < N_thetas :=
  bin_bounds (by decide) (fmod_nonneg h0 hpi) (fmod_lt h0 hpi)

theorem IC_l_bounds [FloorRing K] {M_PI phi : K} (hpi : 0 < M_PI) (h0 : 0 ≤ phi) :
    0 ≤ IC_l M_PI phi ∧ IC_l M_PI phi < N_phis := by
  have h2 : (0 : K) < 2 * M_PI := by linarith
  have hx : (0 : K) ≤ 11 * M_PI + phi := by linarith
  exact bin_bounds (by decide) (fmod_nonneg hx h2) (fmod_lt hx h2)

theorem flat_index_bounds {k l : ℤ} (hk : 0 ≤ k ∧ k < N_thetas) (hl : 0 ≤ l ∧ l < N_phis) :
    0 ≤ k * N_phis + l ∧ k * N_phis + l < N_thetas * N_phis := by
  simp only [N_thetas, N_phis] at *
  omega

theorem incrCell_of_bounds (grid : Grid) {idx : ℤ}
    (h : 0 ≤ idx ∧ idx < N_thetas * N_phis) :
    incrCell grid idx = some (Function.update grid idx.toNat (incr32 (grid idx.toNat))) := by
  simp [incrCell, h]

theorem IC_k_at_pi [FloorRing K] {M_PI : K} (hpi : 0 < M_PI) : IC_k M_PI M_PI = 0 := by
  have h : fmod M_PI M_PI = 0 := by
    rw [fmod_eq_fract hpi.le hpi, div_self hpi.ne']
    simp
  simp [IC_k, h, toInt]

theorem IC_l_at_two_pi [FloorRing K] {M_PI : K} (hpi : 0 < M_PI) :
    IC_l M_PI (2 * M_PI) = 250 := by
  have h2 : (0 : K) < 2 * M_PI := by linarith
  have hq : (11 * M_PI + 2 * M_PI) / (2 * M_PI) = (6 : K) + 1 / 2 := by
    field_simp
    ring
  have hfl : ⌊(6 : K) + 1 / 2⌋ = 6 := by
    rw [Int.floor_eq_iff]
    constructor <;> norm_num
  have h : fmod (11 * M_PI + 2 * M_PI) (2 * M_PI) = M_PI := by
    rw [fmod, hq, toInt_of_nonneg (by norm_num), hfl]
    push_cast
    ring
  have hv : (N_phis : K) * M_PI / (2 * M_PI) = 250 := by
    simp only [N_phis]
    field_simp
    ring
  rw [IC_l, h, hv, toInt_of_nonneg (by norm_num)]
  exact Int.floor_ofNat 250

/-! ### The counter of a cell -/

theorem incr32_wrap32 (n : ℤ) : incr32 (wrap32 n) = wrap32 (n + 1) := by
  simp only [incr32, wrap32]
  omega

theorem incrCell_same {grid : Grid} {c : ℕ} (hc : (c : ℤ) < N_thetas * N_phis) (v : ℤ) :
    incrCell (Function.update grid c (wrap32 v)) (c : ℤ)
      = some (Function.update grid c (wrap32 (v + 1))) := by
  rw [incrCell_of_bounds _ ⟨Int.natCast_nonneg c, hc⟩, Int.toNat_natCast]
  simp [incr32_wrap32]

/-- When every one of the first `n` trials of an event falls in the cell `c`, that cell
counts them modulo `2 ^ 32` and the other cells are unchanged. -/
theorem IC_trials_same_cell [FloorRing K] (M_PI : K) (smeared : ℕ → coord2D K) {c : ℕ}
    (hc : (c : ℤ) < N_thetas * N_phis) (grid : Grid) (v : ℤ) (n : ℕ)
    (h : ∀ j, j < n →
      IC_k M_PI (smeared j).theta * N_phis + IC_l M_PI (smeared j).phi = (c : ℤ)) :
    IC_trials M_PI smeared n (Function.update grid c (wrap32 v))
      = some (Function.update grid c (wrap32 (v + n))) := by
  induction n with
  | zero => simp [IC_trials]
  | succ n ih =>
    rw [IC_trials, ih (fun j hj => h j (Nat.lt_succ_of_lt hj)), Option.some_bind,
      h n (Nat.lt_succ_self n), incrCell_same hc]
    push_cast
    rw [add_assoc]

/-- When every trial of the first `E` events falls in the cell `c`, that cell counts
the `E * N_Repeat` trials modulo `2 ^ 32`. -/
theorem IC_events_same_cell [FloorRing K] (M_PI : K) (smeared : ℕ → ℕ → coord2D K) {c : ℕ}
    (hc : (c : ℤ) < N_thetas * N_phis) (grid : Grid) (v : ℤ) (E : ℕ)
    (h : ∀ i j,
      IC_k M_PI (smeared i j).theta * N_phis + IC_l M_PI (smeared i j).phi = (c : ℤ)) :
    IC_events M_PI smeared E (Function.update grid c (wrap32 v))
      = some (Function.update grid c (wrap32 (v + E * N_Repeat))) := by
  induction E with
  | zero => simp [IC_events]
  | succ E ih =>
    rw [IC_events, ih, Option.some_bind,
      IC_trials_same_cell M_PI (smeared E) hc grid _ _ (fun j _ => h E j)]
    have e : v + (E : ℤ) * N_Repeat + (N_Repeat.toNat : ℤ)
        = v + ((E + 1 : ℕ) : ℤ) * N_Repeat := by
      simp only [N_Repeat]
      push_cast
      omega
    rw [e]

theorem IC_k_at_one [FloorRing K] {M_PI : K} (h1 : 157 / 50 < M_PI) (h2 : M_PI < 1571 / 500) :
    IC_k M_PI 1 = 159 := by
  have hpi : 0 < M_PI := by linarith
  have hq : ⌊(1 : K) / M_PI⌋ = 0 := by
    rw [Int.floor_eq_iff]
    constructor
    · simp only [Int.cast_zero]
      positivity
    · rw [div_lt_iff₀ hpi]
      push_cast
      linarith
  have h : fmod 1 M_PI = 1 := by
    rw [fmod, toInt_of_nonneg (by positivity), hq]
    simp
  have hv : (0 : K) ≤ (N_thetas : K) * 1 / M_PI := by
    simp only [N_thetas]
    positivity
  rw [IC_k, h, toInt_of_nonneg hv, Int.floor_eq_iff]
  simp only [N_thetas]
  push_cast
  constructor
  · rw [le_div_iff₀ hpi]
    linarith
  · rw [div_lt_iff₀ hpi]
    linarith

theorem IC_l_at_one [FloorRing K] {M_PI : K} (h1 : 157 / 50 < M_PI) (h2 : M_PI < 1571 / 500) :
    IC_l M_PI 1 = 329 := by
  have hpi : 0 < M_PI := by linarith
  have h2pi : (0 : K) < 2 * M_PI := by linarith
  have hq : ⌊(11 * M_PI + 1) / (2 * M_PI)⌋ = 5 := by
    rw [Int.floor_eq_iff]
    constructor
    · rw [le_div_iff₀ h2pi]
      push_cast
      linarith
    · rw [div_lt_iff₀ h2pi]
      push_cast
      linarith
  have h : fmod (11 * M_PI + 1) (2 * M_PI) = M_PI + 1 := by
    rw [fmod, toInt_of_nonneg (by positivity), hq]
    push_cast
    ring
  have hv : (0 : K) ≤ (N_phis : K) * (M_PI + 1) / (2 * M_PI) := by
    simp only [N_phis]
    positivity
  rw [IC_l, h, toInt_of_nonneg hv, Int.floor_eq_iff]
  simp only [N_phis]
  push_cast
  constructor
  · rw [le_div_iff₀ h2pi]
    linarith
  · rw [div_lt_iff₀ h2pi]
    linarith

theorem zeroGrid_eq_update (c : ℕ) : zeroGrid = Function.update zeroGrid c (wrap32 0) := by
  funext x
  by_cases hx : x = c
  · subst hx
    simp [zeroGrid, wrap32]
  · simp [Function.update, hx]

/-- The grid of `IC_SkyMap` for `E` events whose trials all draw the direction
`theta = 1`, `phi = 1`, which is in the row 159 and the column 329: the cell
`159 * 500 + 329 = 79829` holds `E * N_Repeat` modulo `2 ^ 32`. -/
theorem IC_populate_sameDirection [FloorRing K] {M_PI : K} (h1 : 157 / 50 < M_PI)
    (h2 : M_PI < 1571 / 500) (E : ℕ) :
    IC_populate M_PI E (sameDirection K)
      = some (Function.update zeroGrid 79829 (wrap32 (E * N_Repeat))) := by
  have hc : ((79829 : ℕ) : ℤ) < N_thetas * N_phis := by decide
  have h := IC_events_same_cell M_PI (sameDirection K) hc zeroGrid 0 E
    (fun i j => by simp [sameDirection, IC_k_at_one h1 h2, IC_l_at_one h1 h2, N_phis])
  rw [IC_populate, zeroGrid_eq_update 79829]
  simpa using h

/-! ### The total of the grid -/

theorem gridTotal_single {c : ℕ} (hc : c < (N_thetas * N_phis).toNat) (v : ℤ) :
    gridTotal (Function.update zeroGrid c v) = v := by
  rw [gridTotal, Finset.sum_update_of_mem (Finset.mem_range.mpr hc)]
  simp [zeroGrid]

/-! ### Accumulation without overflow -/

theorem incr32_of_lt {x : ℤ} (h0 : 0 ≤ x) (h1 : x < 2147483647) : incr32 x = x + 1 := by
  simp only [incr32]
  omega

theorem gridTotal_update (grid : Grid) {c : ℕ} (hc : c < (N_thetas * N_phis).toNat) (v : ℤ) :
    gridTotal (Function.update grid c v) = gridTotal grid - grid c + v := by
  have hmem : c ∈ Finset.range (N_thetas * N_phis).toNat := Finset.mem_range.mpr hc
  rw [gridTotal, gridTotal, Finset.sum_update_of_mem hmem,
    Finset.sum_eq_add_sum_diff_singleton hmem grid]
  ring

theorem IC_trials_eq_accumulate [FloorRing K] (M_PI : K) (smeared : ℕ → coord2D K) (n : ℕ)
    (grid : Grid) :
    IC_trials M_PI smeared n grid
      = accumulate
          (fun j => IC_k M_PI (smeared j).theta * N_phis + IC_l M_PI (smeared j).phi)
          n grid := by
  induction n with
  | zero => rfl
  | succ n ih => rw [IC_trials, accumulate, ih]

theorem MW_trials_eq_accumulate [FloorRing K] (M_PI : K) (MW : ℕ → coord2D K) (n : ℕ)
    (grid : Grid) :
    MW_trials M_PI MW n grid
      = accumulate (fun j => MW_k M_PI (MW j).theta * N_phis + MW_l M_PI (MW j).phi)
          n grid := by
  induction n with
  | zero => rfl
  | succ n ih => rw [MW_trials, accumulate, ih]

/-- As long as no counter can pass `2 ^ 31 - 1`, `n` trials with flat indices in range
add exactly `n` to the sum of the cells, and no cell decreases. -/
theorem accumulate_total (idx : ℕ → ℤ) (B : ℤ) (grid : Grid) (n : ℕ)
    (hidx : ∀ j, j < n → 0 ≤ idx j ∧ idx j < N_thetas * N_phis)
    (hg : ∀ c, 0 ≤ grid c ∧ grid c ≤ B) (hB : B + n ≤ 2147483647) :
    ∃ g, accumulate idx n grid = some g ∧ gridTotal g = gridTotal grid + n ∧
      ∀ c, grid c ≤ g c ∧ g c ≤ B + n := by
  induction n with
  | zero => exact ⟨grid, rfl, by simp, fun c => ⟨le_refl _, by simpa using (hg c).2⟩⟩
  | succ n ih =>
    have hB' : B + (n : ℤ) ≤ 2147483647 := by
      push_cast at hB
      omega
    obtain ⟨g, hrun, htot, hbd⟩ := ih (fun j hj => hidx j (Nat.lt_succ_of_lt hj)) hB'
    have hin := hidx n (Nat.lt_succ_self n)
    have hlt : (idx n).toNat < (N_thetas * N_phis).toNat := by
      have h250 : N_thetas * N_phis = 250000 := by decide
      rw [h250] at hin ⊢
      omega
    have hcell0 : 0 ≤ g (idx n).toNat := le_trans (hg _).1 (hbd _).1
    have hcell1 : g (idx n).toNat < 2147483647 := by
      have := (hbd (idx n).toNat).2
      push_cast at hB
      omega
    refine ⟨Function.update g (idx n).toNat (g (idx n).toNat + 1), ?_, ?_, ?_⟩
    · rw [accumulate, hrun, Option.some_bind, incrCell_of_bounds g hin,
        incr32_of_lt hcell0 hcell1]
    · rw [gridTotal_update g hlt, htot]
      push_cast
      ring
    · intro c
      by_cases hcn : c = (idx n).toNat
      · subst hcn
        rw [Function.update_same]
        have := hbd (idx n).toNat
        push_cast
        omega
      · rw [Function.update_noteq hcn]
        have := hbd c
        push_cast
        omega

/-- One event of `IC_SkyMap`: after `n` trials (at most `2 ^ 31 - 1`, as are the
`N_Repeat` trials of the program) with directions of non-negative angles, the sum of the
cells of the grid is exactly `n` and every cell is non-negative. -/
theorem IC_trials_total [FloorRing K] {M_PI : K} (hpi : 0 < M_PI) (smeared : ℕ → coord2D K)
    (hdir : ∀ j, 0 ≤ (smeared j).theta ∧ 0 ≤ (smeared j).phi) (n : ℕ)
    (hn : (n : ℤ) ≤ 2147483647) :
    ∃ g, IC_trials M_PI smeared n zeroGrid = some g ∧ gridTotal g = n ∧ ∀ c, 0 ≤ g c := by
  obtain ⟨g, hrun, htot, hbd⟩ := accumulate_total
    (fun j => IC_k M_PI (smeared j).theta * N_phis + IC_l M_PI (smeared j).phi) 0 zeroGrid n
    (fun j _ => flat_index_bounds (IC_k_bounds hpi (hdir j).1) (IC_l_bounds hpi (hdir j).2))
    (fun c => by simp [zeroGrid]) (by omega)
  refine ⟨g, by rw [IC_trials_eq_accumulate, hrun], ?_, fun c => (hbd c).1⟩
  rw [htot]
  simp [gridTotal, zeroGrid]

/-- The loop of `MW_SkyMap`: after its `N_Repeat` trials with directions of non-negative
angles, the sum of the cells of the grid is exactly `N_Repeat` and every cell is
non-negative. -/
theorem MW_populate_total [FloorRing K] {M_PI : K} (hpi : 0 < M_PI) (MW : ℕ → coord2D K)
    (hdir : ∀ j, 0 ≤ (MW j).theta ∧ 0 ≤ (MW j).phi) :
    ∃ g, MW_populate M_PI MW = some g ∧ gridTotal g = N_Repeat ∧ ∀ c, 0 ≤ g c := by
  obtain ⟨g, hrun, htot, hbd⟩ := accumulate_total
    (fun j => MW_k M_PI (MW j).theta * N_phis + MW_l M_PI (MW j).phi) 0 zeroGrid
    N_Repeat.toNat
    (fun j _ => by
      simp only [MW_k_eq_IC_k, MW_l_eq_IC_l]
      exact flat_index_bounds (IC_k_bounds hpi (hdir j).1) (IC_l_bounds hpi (hdir j).2))
    (fun c => by simp [zeroGrid]) (by decide)
  refine ⟨g, by rw [MW_populate, MW_trials_eq_accumulate, hrun], ?_, fun c => (hbd c).1⟩
  rw [htot]
  simp [gridTotal, zeroGrid, N_Repeat]

/-- The loops of `IC_SkyMap` for at most two events (`E * N_Repeat ≤ 2 ^ 31 - 1`) with
directions of non-negative angles: the sum of the cells is exactly `E * N_Repeat` and
every cell is non-negative. -/
theorem IC_populate_total [FloorRing K] {M_PI : K} (hpi : 0 < M_PI)
    (smeared : ℕ → ℕ → coord2D K)
    (hdir : ∀ i j, 0 ≤ (smeared i j).theta ∧ 0 ≤ (smeared i j).phi) (E : ℕ)
    (hE : (E : ℤ) * N_Repeat ≤ 2147483647) :
    ∃ g, IC_populate M_PI E smeared = some g ∧ gridTotal g = E * N_Repeat ∧
      ∀ c, 0 ≤ g c ∧ g c ≤ E * N_Repeat := by
  induction E with
  | zero =>
    exact ⟨zeroGrid, rfl, by simp [gridTotal, zeroGrid], fun c => by simp [zeroGrid]⟩
  | succ E ih =>
    have hE' : ((E : ℤ) + 1) * N_Repeat ≤ 2147483647 := by exact_mod_cast hE
    have hN : N_Repeat = 1000000000 := rfl
    have hNn : (N_Repeat.toNat : ℤ) = 1000000000 := by decide
    obtain ⟨g, hrun, htot, hbd⟩ := ih (by rw [hN] at hE' ⊢; omega)
    obtain ⟨g', hrun', htot', hbd'⟩ := accumulate_total
      (fun j => IC_k M_PI (smeared E j).theta * N_phis + IC_l M_PI (smeared E j).phi)
      ((E : ℤ) * N_Repeat) g N_Repeat.toNat
      (fun j _ =>
        flat_index_bounds (IC_k_bounds hpi (hdir E j).1) (IC_l_bounds hpi (hdir E j).2))
      hbd (by rw [hN] at hE' ⊢; omega)
    refine ⟨g', ?_, ?_, fun c => ?_⟩
    · rw [IC_populate] at hrun
      rw [IC_populate, IC_events, hrun, Option.some_bind, IC_trials_eq_accumulate, hrun']
    · rw [htot', htot, hNn, hN]
      push_cast
      ring
    · have h1 := hbd c
      have h2 := hbd' c
      rw [hNn] at h2
      rw [hN] at h1 h2 ⊢
      push_cast
      constructor <;> omega

/-! ### The values written -/

theorem write_k_eq_ediv [FloorRing K] {i : ℤ} (h : 0 ≤ i) : write_k K i = i / N_phis := by
  have hi : (0 : K) ≤ (i : K) := by exact_mod_cast h
  have hpos : (0 : K) ≤ 1 * (i : K) / (N_phis : K) := by
    simp only [N_phis]
    positivity
  rw [write_k, toInt_of_nonneg hpos, Int.floor_eq_iff]
  have hdiv : i = 500 * (i / 500) + i % 500 := by omega
  have hr0 : 0 ≤ i % 500 := by omega
  have hr1 : i % 500 < 500 := by omega
  have hdivK : (i : K) = 500 * ((i / 500 : ℤ) : K) + ((i % 500 : ℤ) : K) := by
    exact_mod_cast hdiv
  have hr0K : (0 : K) ≤ ((i % 500 : ℤ) : K) := by exact_mod_cast hr0
  have hr1K : ((i % 500 : ℤ) : K) < 500 := by exact_mod_cast hr1
  simp only [N_phis]
  push_cast
  constructor
  · rw [le_div_iff₀ (by norm_num)]
    linarith
  · rw [div_lt_iff₀ (by norm_num)]
    linarith

theorem write_theta_eq_center [FloorRing K] (M_PI : K) (i : ℤ) :
    write_theta M_PI i = theta_bin_center M_PI (write_k K i) := by
  simp [write_theta, theta_bin_center, N_phis, N_thetas]

theorem write_cell_eq_logDensity [FloorRing K] (ln sin : K → K) (M_PI : K) (grid : Grid)
    (i : ℕ) :
    write_cell ln sin M_PI grid (i : ℤ)
      = logDensity ln sin (grid i) (theta_bin_center M_PI ((i : ℤ) / N_phis)) N_Repeat := by
  rw [write_cell, logArg, logDensity, write_theta_eq_center,
    write_k_eq_ediv (Int.natCast_nonneg i), Int.toNat_natCast]

theorem write_grid_length [FloorRing K] (ln sin : K → K) (M_PI : K) (grid : Grid) :
    (write_grid ln sin M_PI grid).length = 250000 := by
  have h : (N_thetas * N_phis).toNat = 250000 := by decide
  simp [write_grid, h]

theorem write_grid_getElem? [FloorRing K] (ln sin : K → K) (M_PI : K) (grid : Grid)
    {i : ℕ} (hi : i < 250000) :
    (write_grid ln sin M_PI grid)[i]? = some (write_cell ln sin M_PI grid (i : ℤ)) := by
  have h : (N_thetas * N_phis).toNat = 250000 := by decide
  simp [write_grid, h, List.getElem?_range hi, hi]

theorem write_grid_eq_logDensity [FloorRing K] (ln sin : K → K) (M_PI : K) (grid : Grid) :
    write_grid ln sin M_PI grid
      = (List.range 250000).map fun i : ℕ =>
          logDensity ln sin (grid i) (theta_bin_center M_PI ((i : ℤ) / N_phis)) N_Repeat := by
  have h : (N_thetas * N_phis).toNat = 250000 := by decide
  rw [write_grid, h]
  exact List.map_congr_left (fun i _ => write_cell_eq_logDensity ln sin M_PI grid i)

theorem theta_bin_center_pos {M_PI : K} (hpi : 0 < M_PI) {k : ℤ} (hk : 0 ≤ k) :
    0 < theta_bin_center M_PI k := by
  have hk' : (0 : K) ≤ (k : K) := by exact_mod_cast hk
  simp only [theta_bin_center, N_thetas]
  push_cast
  positivity

theorem theta_bin_center_lt {M_PI : K} (hpi : 0 < M_PI) {k : ℤ} (hk : k < N_thetas) :
    theta_bin_center M_PI k < M_PI := by
  have hk1 : k + 1 ≤ 500 := by
    simp only [N_thetas] at hk
    omega
  have hk' : (k : K) + 1 ≤ 500 := by exact_mod_cast hk1
  simp only [theta_bin_center, N_thetas]
  push_cast
  rw [div_lt_iff₀ (by norm_num)]
  nlinarith

theorem row_bounds {i : ℤ} (h0 : 0 ≤ i) (h1 : i < N_thetas * N_phis) :
    0 ≤ i / N_phis ∧ i / N_phis < N_thetas := by
  simp only [N_thetas, N_phis] at *
  omega

/-! ### The real sine at the centre of a bin -/

theorem sin_center_pos {k : ℤ} (h0 : 0 ≤ k) (h1 : k < N_thetas) :
    0 < Real.sin (theta_bin_center Real.pi k) :=
  Real.sin_pos_of_pos_of_lt_pi (theta_bin_center_pos Real.pi_pos h0)
    (theta_bin_center_lt Real.pi_pos h1)

theorem sin_write_theta_pos {i : ℕ} (hi : (i : ℤ) < N_thetas * N_phis) :
    0 < Real.sin (write_theta Real.pi (i : ℤ)) := by
  have hr := row_bounds (Int.natCast_nonneg i) hi
  rw [write_theta_eq_center, write_k_eq_ediv (Int.natCast_nonneg i)]
  exact sin_center_pos hr.1 hr.2

theorem logArg_of_sin_ne_zero [FloorRing K] (sin : K → K) (M_PI : K) (grid : Grid) (i : ℕ)
    (h : sin (write_theta M_PI (i : ℤ)) ≠ 0) :
    logArg sin M_PI grid (i : ℤ)
      = some ((grid i : K) / sin (write_theta M_PI (i : ℤ)) / (N_Repeat : K)) := by
  have hN : (N_Repeat : K) ≠ 0 := by
    simp [N_Repeat]
  simp [logArg, cdiv, h, hN]

theorem write_cell_zero_count {grid : Grid} {i : ℕ} (hi : (i : ℤ) < N_thetas * N_phis)
    (hz : grid i = 0) :
    logArg Real.sin Real.pi grid (i : ℤ) = some 0 ∧
      write_cell Real.log Real.sin Real.pi grid (i : ℤ) = some ⊥ := by
  have h := logArg_of_sin_ne_zero Real.sin Real.pi grid i (sin_write_theta_pos hi).ne'
  rw [hz] at h
  have h0 : logArg Real.sin Real.pi grid (i : ℤ) = some 0 := by
    rw [h]
    simp
  refine ⟨h0, ?_⟩
  rw [write_cell, h0]
  simp [clog]

theorem M_PI_double_pos : 0 < M_PI_double := by
  norm_num [M_PI_double]

theorem M_PI_double_gt : 157 / 50 < M_PI_double := by
  norm_num [M_PI_double]

theorem M_PI_double_lt : M_PI_double < 1571 / 500 := by
  norm_num [M_PI_double]

theorem pi_gt : (157 / 50 : ℝ) < Real.pi := by
  have h := Real.pi_gt_d2
  norm_num at h ⊢
  linarith

theorem pi_lt : Real.pi < (1571 / 500 : ℝ) := by
  have h := Real.pi_lt_d4
  norm_num at h ⊢
  linarith

theorem f_gal_lt {i j : ℕ} (h : i < j) : (f_gal (i : ℤ) : K) < f_gal (j : ℤ) := by
  rw [f_gal_eq, f_gal_eq]
  have h' : (i : K) < (j : K) := by exact_mod_cast h
  push_cast
  linarith

end Proofs

/-! ## The claims -/

section Claims

variable {K : Type*} [LinearOrderedField K]

/-- C1, as amended: for every event of the table whose likelihoods are non-negative with
`L_bkg + L_astro > 0` and `L_gal + L_exgal > 0`, the posterior triple computed in
`Likelihood_Table` is defined and `pbkg + pgal + pexgal = 1`; the table has one row
for each event. -/
theorem Likelihood_Table_sum_eq_one {Ev : Type} (L_bkg L_astro : Ev → K)
    (L_gal : Ev → K → K) (L_exgal : K → K) (hfgal : K) (events_sorted : List Ev)
    (_hnonneg : ∀ ev ∈ events_sorted,
      0 ≤ L_bkg ev ∧ 0 ≤ L_astro ev ∧ 0 ≤ L_gal ev hfgal ∧ 0 ≤ L_exgal hfgal)
    (hpos : ∀ ev ∈ events_sorted,
      0 < L_bkg ev + L_astro ev ∧ 0 < L_gal ev hfgal + L_exgal hfgal) :
    (Likelihood_Table L_bkg L_astro L_gal L_exgal hfgal events_sorted).length
        = events_sorted.length ∧
      ∀ row ∈ Likelihood_Table L_bkg L_astro L_gal L_exgal hfgal events_sorted,
        ∃ pbkg pgal pexgal : K,
          row = some (pbkg, pgal, pexgal) ∧ pbkg + pgal + pexgal = 1 := by
  refine ⟨by simp [Likelihood_Table], ?_⟩
  intro row hrow
  simp only [Likelihood_Table, List.mem_map] at hrow
  obtain ⟨ev, hev, rfl⟩ := hrow
  obtain ⟨h1, h2⟩ := hpos ev hev
  exact ⟨_, _, _, posterior_of_ne_zero _ _ _ _ h1.ne' h2.ne',
    posterior_sum _ _ _ _ h1.ne' h2.ne'⟩

/-- Witness of C1 as amended: one event with `L_bkg = 1`, `L_astro = 3`, `L_gal = 1`,
`L_exgal = 1`. -/
theorem Likelihood_Table_sum_eq_one_witness :
    (Likelihood_Table (fun _ : Unit => (1 : ℚ)) (fun _ => 3) (fun _ _ => 1) (fun _ => 1)
        0 [()]).length = [()].length ∧
      ∀ row ∈ Likelihood_Table (fun _ : Unit => (1 : ℚ)) (fun _ => 3) (fun _ _ => 1)
          (fun _ => 1) 0 [()],
        ∃ pbkg pgal pexgal : ℚ,
          row = some (pbkg, pgal, pexgal) ∧ pbkg + pgal + pexgal = 1 :=
  Likelihood_Table_sum_eq_one (fun _ : Unit => (1 : ℚ)) (fun _ => 3) (fun _ _ => 1)
    (fun _ => 1) 0 [()] (fun _ _ => by norm_num) (fun _ _ => by norm_num)

/-- C1 fails as stated: for an event with `L_bkg = L_astro = 0` (and `L_gal = L_exgal = 1`,
all non-negative) the quotient `Lbkg / (Lbkg + Lastro)` is `0 / 0`, so the row has no
posterior triple summing to 1; likewise when `L_gal = L_exgal = 0`. -/
theorem Likelihood_Table_zero_likelihoods :
    (¬ ∃ pbkg pgal pexgal : ℚ,
        (Likelihood_Table (fun _ : Unit => (0 : ℚ)) (fun _ => 0) (fun _ _ => 1) (fun _ => 1)
          0 [()])[0]? = some (some (pbkg, pgal, pexgal)) ∧ pbkg + pgal + pexgal = 1) ∧
      Likelihood_Table (fun _ : Unit => (0 : ℚ)) (fun _ => 0) (fun _ _ => 1) (fun _ => 1)
        0 [()] = [none] ∧
      Likelihood_Table (fun _ : Unit => (1 : ℚ)) (fun _ => 1) (fun _ _ => 0) (fun _ => 0)
        0 [()] = [none] := by
  simp [Likelihood_Table, posterior, cdiv]

/-- C2: in `IC_SkyMap` and `MW_SkyMap`, for `theta` in `[0, π]` and `phi` in `[0, 2π]`
the bin indices satisfy `0 ≤ k < N_thetas` and `0 ≤ l < N_phis`, the flat index
`k * N_phis + l` lies in `[0, N_thetas * N_phis)`, and the increment of the grid at that
index is defined (the out-of-range case is not reached). -/
theorem bin_indices_in_range [FloorRing K] (M_PI theta phi : K) (grid : Grid)
    (hpi : 0 < M_PI) (ht0 : 0 ≤ theta) (_ht1 : theta ≤ M_PI)
    (hp0 : 0 ≤ phi) (_hp1 : phi ≤ 2 * M_PI) :
    ((0 ≤ IC_k M_PI theta ∧ IC_k M_PI theta < N_thetas) ∧
      (0 ≤ IC_l M_PI phi ∧ IC_l M_PI phi < N_phis) ∧
      (0 ≤ IC_k M_PI theta * N_phis + IC_l M_PI phi ∧
        IC_k M_PI theta * N_phis + IC_l M_PI phi < N_thetas * N_phis) ∧
      incrCell grid (IC_k M_PI theta * N_phis + IC_l M_PI phi) ≠ none) ∧
    ((0 ≤ MW_k M_PI theta ∧ MW_k M_PI theta < N_thetas) ∧
      (0 ≤ MW_l M_PI phi ∧ MW_l M_PI phi < N_phis) ∧
      (0 ≤ MW_k M_PI theta * N_phis + MW_l M_PI phi ∧
        MW_k M_PI theta * N_phis + MW_l M_PI phi < N_thetas * N_phis) ∧
      incrCell grid (MW_k M_PI theta * N_phis + MW_l M_PI phi) ≠ none) := by
  have hk := IC_k_bounds hpi ht0
  have hl := IC_l_bounds hpi hp0
  have hf := flat_index_bounds hk hl
  rw [MW_k_eq_IC_k, MW_l_eq_IC_l]
  have hs : incrCell grid (IC_k M_PI theta * N_phis + IC_l M_PI phi) ≠ none := by
    rw [incrCell_of_bounds grid hf]
    exact Option.some_ne_none _
  exact ⟨⟨hk, hl, hf, hs⟩, ⟨hk, hl, hf, hs⟩⟩

/-- Witness of C2: `M_PI` the `double` of the C library, `theta = 1`, `phi = 2`, on the
all-zero grid. -/
theorem bin_indices_in_range_witness :
    ((0 ≤ IC_k M_PI_double 1 ∧ IC_k M_PI_double 1 < N_thetas) ∧
      (0 ≤ IC_l M_PI_double 2 ∧ IC_l M_PI_double 2 < N_phis) ∧
      (0 ≤ IC_k M_PI_double 1 * N_phis + IC_l M_PI_double 2 ∧
        IC_k M_PI_double 1 * N_phis + IC_l M_PI_double 2 < N_thetas * N_phis) ∧
      incrCell zeroGrid (IC_k M_PI_double 1 * N_phis + IC_l M_PI_double 2) ≠ none) ∧
    ((0 ≤ MW_k M_PI_double 1 ∧ MW_k M_PI_double 1 < N_thetas) ∧
      (0 ≤ MW_l M_PI_double 2 ∧ MW_l M_PI_double 2 < N_phis) ∧
      (0 ≤ MW_k M_PI_double 1 * N_phis + MW_l M_PI_double 2 ∧
        MW_k M_PI_double 1 * N_phis + MW_l M_PI_double 2 < N_thetas * N_phis) ∧
      incrCell zeroGrid (MW_k M_PI_double 1 * N_phis + MW_l M_PI_double 2) ≠ none) :=
  bin_indices_in_range M_PI_double 1 2 zeroGrid M_PI_double_pos (by norm_num)
    (by norm_num [M_PI_double]) (by norm_num) (by norm_num [M_PI_double])

/-- C3, as amended: a direction at the exact boundary `theta = π`, `phi = 2π` is assigned
to a valid bin in each dimension, which is not the last one: `fmod` wraps `theta = π` to
the first theta bin, `k = 0`, and the phi index `l` is a valid index other than
`N_phis - 1`; in `IC_SkyMap` and in `MW_SkyMap`. -/
theorem boundary_direction_bin [FloorRing K] (M_PI : K) (hpi : 0 < M_PI) :
    (IC_k M_PI M_PI = 0 ∧
        (0 ≤ IC_l M_PI (2 * M_PI) ∧ IC_l M_PI (2 * M_PI) < N_phis) ∧
        IC_l M_PI (2 * M_PI) ≠ N_phis - 1) ∧
      (MW_k M_PI M_PI = 0 ∧
        (0 ≤ MW_l M_PI (2 * M_PI) ∧ MW_l M_PI (2 * M_PI) < N_phis) ∧
        MW_l M_PI (2 * M_PI) ≠ N_phis - 1) ∧
      (0 : ℤ) < N_thetas ∧ (0 : ℤ) ≠ N_thetas - 1 := by
  rw [MW_k_eq_IC_k, MW_l_eq_IC_l, IC_k_at_pi hpi, IC_l_at_two_pi hpi]
  decide

/-- Witness of C3 as amended, at the value of `M_PI` in the C library. -/
theorem boundary_direction_bin_witness :
    (IC_k M_PI_double M_PI_double = 0 ∧
        (0 ≤ IC_l M_PI_double (2 * M_PI_double) ∧
          IC_l M_PI_double (2 * M_PI_double) < N_phis) ∧
        IC_l M_PI_double (2 * M_PI_double) ≠ N_phis - 1) ∧
      (MW_k M_PI_double M_PI_double = 0 ∧
        (0 ≤ MW_l M_PI_double (2 * M_PI_double) ∧
          MW_l M_PI_double (2 * M_PI_double) < N_phis) ∧
        MW_l M_PI_double (2 * M_PI_double) ≠ N_phis - 1) ∧
      (0 : ℤ) < N_thetas ∧ (0 : ℤ) ≠ N_thetas - 1 :=
  boundary_direction_bin M_PI_double M_PI_double_pos

/-- C3 fails as stated: at `theta = π`, `phi = 2π` neither computed index is that of the
last bin, `N_thetas - 1 = 499` and `N_phis - 1 = 499`. -/
theorem boundary_direction_not_last_bin :
    IC_k M_PI_double M_PI_double ≠ N_thetas - 1 ∧
      IC_l M_PI_double (2 * M_PI_double) ≠ N_phis - 1 ∧
      MW_k M_PI_double M_PI_double ≠ N_thetas - 1 ∧
      MW_l M_PI_double (2 * M_PI_double) ≠ N_phis - 1 := by
  rw [MW_k_eq_IC_k, MW_l_eq_IC_l, IC_k_at_pi M_PI_double_pos,
    IC_l_at_two_pi M_PI_double_pos]
  decide

/-- C4, the code at the failing input: for three events whose `3 * N_Repeat` trials all fall in
the same cell, the `int` counter of that cell wraps and the sum of the cells after the
loops of `IC_SkyMap` is `3 * N_Repeat - 2 ^ 32 = -1294967296`, not `3 * N_Repeat`. -/
theorem IC_three_events_total :
    (IC_populate M_PI_double 3 (sameDirection ℚ)).map gridTotal
        = some (3 * N_Repeat - 4294967296) ∧
      (3 * N_Repeat - 4294967296 : ℤ) = -1294967296 ∧
      (3 * N_Repeat - 4294967296 : ℤ) ≠ 3 * N_Repeat := by
  rw [IC_populate_sameDirection M_PI_double_gt M_PI_double_lt 3, Option.map_some',
    gridTotal_single (by decide)]
  decide

/-- C10, the code at the failing input: with three events whose trials all fall in the cell 79829,
the cell holds `2000000000` after two events and `2147483647` after the first 147483647
trials of the third event; the next increment makes it `-2147483648` (smaller, and
negative), and it is `-1294967296` when `IC_SkyMap` has finished the loops. -/
theorem IC_cell_overflow :
    IC_events M_PI_double (sameDirection ℚ) 2 zeroGrid
        = some (Function.update zeroGrid 79829 2000000000) ∧
      (IC_trials M_PI_double (sameDirection ℚ 2) 147483647
        (Function.update zeroGrid 79829 2000000000)).map (fun g => g 79829)
        = some 2147483647 ∧
      (IC_trials M_PI_double (sameDirection ℚ 2) 147483648
        (Function.update zeroGrid 79829 2000000000)).map (fun g => g 79829)
        = some (-2147483648) ∧
      (IC_populate M_PI_double 3 (sameDirection ℚ)).map (fun g => g 79829)
        = some (-1294967296) := by
  have hc : ((79829 : ℕ) : ℤ) < N_thetas * N_phis := by decide
  have hw : wrap32 ((2 : ℕ) * N_Repeat) = 2000000000 := by decide
  have hw2 : wrap32 2000000000 = 2000000000 := by decide
  have h2 : IC_events M_PI_double (sameDirection ℚ) 2 zeroGrid
      = some (Function.update zeroGrid 79829 2000000000) := by
    have h := IC_populate_sameDirection M_PI_double_gt M_PI_double_lt 2
    rwa [IC_populate, hw] at h
  have ht : ∀ n : ℕ, IC_trials M_PI_double (sameDirection ℚ 2) n
      (Function.update zeroGrid 79829 2000000000)
      = some (Function.update zeroGrid 79829 (wrap32 (2000000000 + n))) := by
    intro n
    have h := IC_trials_same_cell M_PI_double (sameDirection ℚ 2) hc zeroGrid 2000000000 n
      (fun j _ => by
        simp [sameDirection, IC_k_at_one M_PI_double_gt M_PI_double_lt,
          IC_l_at_one M_PI_double_gt M_PI_double_lt, N_phis])
    rwa [hw2] at h
  refine ⟨h2, ?_, ?_, ?_⟩
  · rw [ht, Option.map_some', Function.update_same]
    decide
  · rw [ht, Option.map_some', Function.update_same]
    decide
  · rw [IC_populate_sameDirection M_PI_double_gt M_PI_double_lt 3, Option.map_some',
      Function.update_same]
    decide

/-- C5, as amended: in both sky-map modes the value written for the cell `i` is
`log(count / sin(theta_bin_center) / N_Repeat)`, where `count` is the count of the cell
and `theta_bin_center` the centre of its theta bin `i / N_phis`; the divisor is
`N_Repeat` in `MW_SkyMap` and also in `IC_SkyMap`, whatever the number of events. -/
theorem SkyMap_log_density [FloorRing K] (ln sin : K → K) (M_PI : K) (E : ℕ)
    (smeared : ℕ → ℕ → coord2D K) (MW : ℕ → coord2D K) :
    IC_SkyMap ln sin M_PI E smeared
        = (IC_populate M_PI E smeared).map (fun grid =>
            { header := (N_thetas, N_phis, N_Repeat),
              cells := (List.range 250000).map fun i : ℕ =>
                logDensity ln sin (grid i) (theta_bin_center M_PI ((i : ℤ) / N_phis))
                  N_Repeat }) ∧
      MW_SkyMap ln sin M_PI MW
        = (MW_populate M_PI MW).map (fun grid =>
            { header := (N_thetas, N_phis, N_Repeat),
              cells := (List.range 250000).map fun i : ℕ =>
                logDensity ln sin (grid i) (theta_bin_center M_PI ((i : ℤ) / N_phis))
                  N_Repeat }) := by
  simp only [IC_SkyMap, MW_SkyMap, write_grid_eq_logDensity, and_self]

/-- C5 fails as stated for `IC_SkyMap`: with two events whose `2 * N_Repeat` trials all
fall in the cell 79829 (row 159), the value written for that cell is `log(2 / s)` with
`s` the sine of the centre of the theta bin 159 (count divided by `N_Repeat`), which
differs from `log(1 / s)`, the value with the total number of trials `2 * N_Repeat` as
divisor. -/
theorem IC_SkyMap_two_events_density :
    (IC_populate Real.pi 2 (sameDirection ℝ)).map (fun g => g 79829) = some 2000000000 ∧
      (IC_SkyMap Real.log Real.sin Real.pi 2 (sameDirection ℝ)).map
          (fun f => f.cells[79829]?)
        = some (some (logDensity Real.log Real.sin 2000000000
            (theta_bin_center Real.pi 159) N_Repeat)) ∧
      logDensity Real.log Real.sin 2000000000 (theta_bin_center Real.pi 159) N_Repeat
        = some ((Real.log (2 / Real.sin (theta_bin_center Real.pi 159)) : ℝ) : WithBot ℝ) ∧
      logDensity Real.log Real.sin 2000000000 (theta_bin_center Real.pi 159) (2 * N_Repeat)
        = some ((Real.log (1 / Real.sin (theta_bin_center Real.pi 159)) : ℝ) : WithBot ℝ) ∧
      Real.log (2 / Real.sin (theta_bin_center Real.pi 159))
        ≠ Real.log (1 / Real.sin (theta_bin_center Real.pi 159)) := by
  have hpop := IC_populate_sameDirection pi_gt pi_lt 2
  have hw : wrap32 ((2 : ℕ) * N_Repeat) = 2000000000 := by decide
  rw [hw] at hpop
  have hs : 0 < Real.sin (theta_bin_center Real.pi 159) :=
    sin_center_pos (by decide) (by decide)
  have hx2 : (0 : ℝ) < 2 / Real.sin (theta_bin_center Real.pi 159) := by positivity
  have hx1 : (0 : ℝ) < 1 / Real.sin (theta_bin_center Real.pi 159) := by positivity
  have e2 : ((2000000000 : ℤ) : ℝ) / Real.sin (theta_bin_center Real.pi 159)
      / ((N_Repeat : ℤ) : ℝ) = 2 / Real.sin (theta_bin_center Real.pi 159) := by
    simp only [N_Repeat]
    push_cast
    field_simp
    ring
  have e1 : ((2000000000 : ℤ) : ℝ) / Real.sin (theta_bin_center Real.pi 159)
      / ((2 * N_Repeat : ℤ) : ℝ) = 1 / Real.sin (theta_bin_center Real.pi 159) := by
    simp only [N_Repeat]
    push_cast
    field_simp
    ring
  have hN : ((N_Repeat : ℤ) : ℝ) ≠ 0 := by simp [N_Repeat]
  have hN2 : ((2 * N_Repeat : ℤ) : ℝ) ≠ 0 := by simp [N_Repeat]
  refine ⟨?_, ?_, ?_, ?_, ?_⟩
  · rw [hpop, Option.map_some', Function.update_same]
  · rw [IC_SkyMap, hpop, Option.map_some', Option.map_some',
      write_grid_getElem? _ _ _ _ (by norm_num),
      write_cell_eq_logDensity, Function.update_same]
    rfl
  · rw [logDensity, cdiv, if_neg hs.ne', Option.some_bind, cdiv, if_neg hN,
      Option.some_bind, e2, clog, if_neg (not_lt.mpr hx2.le), if_neg hx2.ne']
  · rw [logDensity, cdiv, if_neg hs.ne', Option.some_bind, cdiv, if_neg hN2,
      Option.some_bind, e1, clog, if_neg (not_lt.mpr hx1.le), if_neg hx1.ne']
  · have hlt : (1 : ℝ) / Real.sin (theta_bin_center Real.pi 159)
        < 2 / Real.sin (theta_bin_center Real.pi 159) :=
      div_lt_div_of_pos_right (by norm_num) hs
    exact (Real.log_lt_log hx1 hlt).ne'

/-- C6: at finalization a cell `i` whose count is zero yields minus infinity, the argument
of `log` being exactly `0` (a defined value); when the count is positive the argument
is defined and strictly positive; and the all-zero grid yields minus infinity in every
one of the `N_thetas * N_phis` values written. -/
theorem zero_count_minus_infinity (grid : Grid) (i : ℕ)
    (hi : (i : ℤ) < N_thetas * N_phis) :
    (grid i = 0 →
        logArg Real.sin Real.pi grid (i : ℤ) = some 0 ∧
          write_cell Real.log Real.sin Real.pi grid (i : ℤ) = some ⊥) ∧
      (0 < grid i →
        ∃ x : ℝ, 0 < x ∧ logArg Real.sin Real.pi grid (i : ℤ) = some x) ∧
      write_grid Real.log Real.sin Real.pi zeroGrid
        = List.replicate (N_thetas * N_phis).toNat (some ⊥) := by
  refine ⟨fun hz => write_cell_zero_count hi hz, fun hp => ?_, ?_⟩
  · have hs := sin_write_theta_pos hi
    refine ⟨_, ?_, logArg_of_sin_ne_zero Real.sin Real.pi grid i hs.ne'⟩
    have hg : (0 : ℝ) < ((grid i : ℤ) : ℝ) := by exact_mod_cast hp
    have hN : (0 : ℝ) < ((N_Repeat : ℤ) : ℝ) := by simp [N_Repeat]
    positivity
  · rw [write_grid, List.eq_replicate_iff]
    refine ⟨by simp, ?_⟩
    intro v hv
    simp only [List.mem_map, List.mem_range] at hv
    obtain ⟨j, hj, rfl⟩ := hv
    have hj' : (j : ℤ) < N_thetas * N_phis := Int.lt_toNat.mp hj
    exact (write_cell_zero_count hj' rfl).2

/-- Witness of C6: the cell 0 of the all-zero grid. -/
theorem zero_count_minus_infinity_witness :
    (zeroGrid 0 = 0 →
        logArg Real.sin Real.pi zeroGrid ((0 : ℕ) : ℤ) = some 0 ∧
          write_cell Real.log Real.sin Real.pi zeroGrid ((0 : ℕ) : ℤ) = some ⊥) ∧
      (0 < zeroGrid 0 →
        ∃ x : ℝ, 0 < x ∧ logArg Real.sin Real.pi zeroGrid ((0 : ℕ) : ℤ) = some x) ∧
      write_grid Real.log Real.sin Real.pi zeroGrid
        = List.replicate (N_thetas * N_phis).toNat (some ⊥) :=
  zero_count_minus_infinity zeroGrid 0 (by decide)

/-- C7: for every flat index `i` in `[0, N_thetas * N_phis)`, the row is
`k = int(1.0 * i / N_phis) = i / N_phis` in `[0, N_thetas)`, the value
`theta = π * (k + 0.5) / N_phis` of the finalization is the centre
`π * (k + 0.5) / N_thetas` of the theta bin `k`, it lies strictly inside `(0, π)`,
`sin(theta) > 0`, and the division by `sin(theta)` is defined. -/
theorem write_theta_interior (i : ℕ) (hi : (i : ℤ) < N_thetas * N_phis) :
    write_k ℝ (i : ℤ) = (i : ℤ) / N_phis ∧
      (0 ≤ write_k ℝ (i : ℤ) ∧ write_k ℝ (i : ℤ) < N_thetas) ∧
      write_theta Real.pi (i : ℤ)
        = Real.pi * ((write_k ℝ (i : ℤ) : ℝ) + 1 / 2) / (N_thetas : ℝ) ∧
      (0 < write_theta Real.pi (i : ℤ) ∧ write_theta Real.pi (i : ℤ) < Real.pi) ∧
      0 < Real.sin (write_theta Real.pi (i : ℤ)) ∧
      ∀ a : ℝ, cdiv a (Real.sin (write_theta Real.pi (i : ℤ)))
        = some (a / Real.sin (write_theta Real.pi (i : ℤ))) := by
  have hr := row_bounds (Int.natCast_nonneg i) hi
  have hk : write_k ℝ (i : ℤ) = (i : ℤ) / N_phis := write_k_eq_ediv (Int.natCast_nonneg i)
  have hs := sin_write_theta_pos hi
  refine ⟨hk, by rw [hk]; exact hr, ?_, ?_, hs, fun a => by simp [cdiv, hs.ne']⟩
  · rw [write_theta_eq_center, theta_bin_center]
  · rw [write_theta_eq_center, hk]
    exact ⟨theta_bin_center_pos Real.pi_pos hr.1, theta_bin_center_lt Real.pi_pos hr.2⟩

/-- Witness of C7: the last cell, `i = 249999`. -/
theorem write_theta_interior_witness :
    write_k ℝ ((249999 : ℕ) : ℤ) = ((249999 : ℕ) : ℤ) / N_phis ∧
      (0 ≤ write_k ℝ ((249999 : ℕ) : ℤ) ∧ write_k ℝ ((249999 : ℕ) : ℤ) < N_thetas) ∧
      write_theta Real.pi ((249999 : ℕ) : ℤ)
        = Real.pi * ((write_k ℝ ((249999 : ℕ) : ℤ) : ℝ) + 1 / 2) / (N_thetas : ℝ) ∧
      (0 < write_theta Real.pi ((249999 : ℕ) : ℤ) ∧
        write_theta Real.pi ((249999 : ℕ) : ℤ) < Real.pi) ∧
      0 < Real.sin (write_theta Real.pi ((249999 : ℕ) : ℤ)) ∧
      ∀ a : ℝ, cdiv a (Real.sin (write_theta Real.pi ((249999 : ℕ) : ℤ)))
        = some (a / Real.sin (write_theta Real.pi ((249999 : ℕ) : ℤ))) :=
  write_theta_interior 249999 (by decide)

/-- C9: the values are written in row-major order, consistent with the accumulation: for
`k` in `[0, N_thetas)` and `l` in `[0, N_phis)` the increment at `i = k * N_phis + l`
changes the cell `i` only, the `i`-th value written is the one of the cell `i`, the row
recovered at finalization is `k`, so that the cell is normalised with the centre of the
theta bin `k`; exactly `N_thetas * N_phis` values are written. -/
theorem row_major_order [FloorRing K] (ln sin : K → K) (M_PI : K) (grid : Grid) (k l : ℤ)
    (hk : 0 ≤ k ∧ k < N_thetas) (hl : 0 ≤ l ∧ l < N_phis) :
    incrCell grid (k * N_phis + l)
        = some (Function.update grid (k * N_phis + l).toNat
            (incr32 (grid (k * N_phis + l).toNat))) ∧
      (write_grid ln sin M_PI grid)[(k * N_phis + l).toNat]?
        = some (write_cell ln sin M_PI grid (k * N_phis + l)) ∧
      write_k K (k * N_phis + l) = k ∧
      write_cell ln sin M_PI grid (k * N_phis + l)
        = logDensity ln sin (grid (k * N_phis + l).toNat) (theta_bin_center M_PI k)
            N_Repeat ∧
      (write_grid ln sin M_PI grid).length = (N_thetas * N_phis).toNat := by
  have hf := flat_index_bounds hk hl
  have hrow : (k * N_phis + l) / N_phis = k := by
    simp only [N_thetas, N_phis] at *
    omega
  have hnat : ((k * N_phis + l).toNat : ℤ) = k * N_phis + l := Int.toNat_of_nonneg hf.1
  have hlt : (k * N_phis + l).toNat < 250000 := by
    simp only [N_thetas, N_phis] at *
    omega
  refine ⟨incrCell_of_bounds grid hf, ?_, ?_, ?_, ?_⟩
  · rw [write_grid_getElem? ln sin M_PI grid hlt, hnat]
  · rw [write_k_eq_ediv hf.1, hrow]
  · have h := write_cell_eq_logDensity ln sin M_PI grid (k * N_phis + l).toNat
    rwa [hnat, hrow] at h
  · rw [write_grid_length]
    decide

/-- Witness of C9: the cell of row `k = 1` and column `l = 2` of the all-zero grid, with
the real sine, logarithm and `π`. -/
theorem row_major_order_witness :
    incrCell zeroGrid (1 * N_phis + 2)
        = some (Function.update zeroGrid (1 * N_phis + 2).toNat
            (incr32 (zeroGrid (1 * N_phis + 2).toNat))) ∧
      (write_grid Real.log Real.sin Real.pi zeroGrid)[(1 * N_phis + 2).toNat]?
        = some (write_cell Real.log Real.sin Real.pi zeroGrid (1 * N_phis + 2)) ∧
      write_k ℝ (1 * N_phis + 2) = 1 ∧
      write_cell Real.log Real.sin Real.pi zeroGrid (1 * N_phis + 2)
        = logDensity Real.log Real.sin (zeroGrid (1 * N_phis + 2).toNat)
            (theta_bin_center Real.pi 1) N_Repeat ∧
      (write_grid Real.log Real.sin Real.pi zeroGrid).length = (N_thetas * N_phis).toNat :=
  row_major_order Real.log Real.sin Real.pi zeroGrid 1 2 (by decide) (by decide)

/-- C8: the scan of `Likelihood` has exactly `N_Steps + 1 = 1001` lines; line `i` holds
`f_gal i = f_gal_min + i * (f_gal_max - f_gal_min) / N_Steps` and `logL` there; the
values of `f_gal` start at 0, end at 1, lie in `[0, 1]`, grow by `1 / 1000` at each step
and are strictly increasing in the order of the file. -/
theorem Likelihood_scan_grid (logL : K → K) :
    (Likelihood logL).length = 1001 ∧
      (∀ i : ℕ, i ≤ 1000 →
        (Likelihood logL)[i]? = some ((f_gal (i : ℤ) : K), logL (f_gal (i : ℤ)))) ∧
      (f_gal 0 : K) = 0 ∧ (f_gal 1000 : K) = 1 ∧
      (∀ i : ℕ, i ≤ 1000 → (0 : K) ≤ f_gal (i : ℤ) ∧ (f_gal (i : ℤ) : K) ≤ 1) ∧
      (∀ i : ℕ, i < 1000 → (f_gal ((i : ℤ) + 1) : K) - f_gal (i : ℤ) = 1 / 1000) ∧
      (∀ i j : ℕ, i < j → (f_gal (i : ℤ) : K) < f_gal (j : ℤ)) ∧
      List.Pairwise (fun a b => a < b) ((Likelihood logL).map Prod.fst) := by
  have hlen : (N_Steps + 1).toNat = 1001 := by decide
  refine ⟨by simp [Likelihood, hlen], ?_, by simp [f_gal_eq], by simp [f_gal_eq], ?_, ?_,
    fun i j h => f_gal_lt h, ?_⟩
  · intro i hi
    have hi' : i < 1001 := by omega
    simp [Likelihood, hlen, List.getElem?_range hi', hi']
  · intro i hi
    rw [f_gal_eq]
    have h0 : (0 : K) ≤ (i : K) := Nat.cast_nonneg i
    have h1 : (i : K) ≤ 1000 := by exact_mod_cast hi
    push_cast
    constructor
    · positivity
    · linarith
  · intro i _
    rw [f_gal_eq, f_gal_eq]
    push_cast
    ring
  · rw [Likelihood, List.map_map, List.pairwise_map]
    exact (List.pairwise_lt_range _).imp (fun h => f_gal_lt h)

end Claims

end AvA
